import Mathlib

/-!
Shallow embedding of the `StackVec` crate (src/src/lib.rs): a fixed-capacity,
non-reallocating vector backed by an array of `MaybeUninit<T>` slots plus a
`len` counter.

Modelling conventions:
* A `MaybeUninit<T>` slot is an `Option α`: `some x` is an initialized slot
  holding `x`, `none` is an uninitialized slot.  `MaybeUninit::uninit()` is
  `none`, `write`/`MaybeUninit::new` store `some x`, and extracting a value by
  swapping in a fresh uninit (`std::mem::swap` with `MaybeUninit::uninit()`)
  reads the slot and leaves `none` behind.
* The backing array `data: [MaybeUninit<T>; LEN]` is a `List (Option α)` whose
  length is the capacity; the const generic `LEN` becomes the field `cap`.
* Operations that can panic return a `Bool` success flag alongside the
  post-state (the source panics without mutating in every such branch), or
  `none` for the indexing operators whose only failure mode is the panic.
* `assume_init` on an uninitialized slot is undefined behaviour in the source;
  here it surfaces as the extracted `Option α` being `none`.  On well-formed
  inputs (invariant `I1`) such a read never happens.
-/

/-- Embedding of `StackVec<LEN, T>`: `cap` is the const generic `LEN`,
`data` the backing `[MaybeUninit<T>; LEN]`, `len` the count of initialized
elements. -/
structure StackVec (α : Type) where
  cap  : Nat
  data : List (Option α)
  len  : Nat
  deriving DecidableEq

namespace StackVec

/-- Structural well-formedness: the backing array really has `cap` slots and
`len` never exceeds it. -/
def WF (v : StackVec α) : Prop :=
  v.data.length = v.cap ∧ v.len ≤ v.cap

/-- The invariant I1 asserted throughout the source (`lib.rs` line 149):
`len ≤ cap` and a slot is initialized exactly when its index is below `len`. -/
def I1 (v : StackVec α) : Prop :=
  v.data.length = v.cap ∧ v.len ≤ v.cap ∧
    ∀ i, i < v.cap → ((v.data.getD i none).isSome ↔ i < v.len)

instance (v : StackVec α) : Decidable v.I1 := by
  unfold I1
  exact inferInstance

instance (v : StackVec α) : Decidable v.WF := by
  unfold WF
  exact inferInstance

/-- `StackVec::new`: the backing array is left fully uninitialized and
`len = 0`. -/
def new (cap : Nat) : StackVec α :=
  { cap := cap, data := List.replicate cap none, len := 0 }

/-- `<[MaybeUninit<T>]>::swap(i, j)`: exchange two slots of the backing array.
(The source's `slice::swap` panics when an index is out of bounds; every call
site below stays in bounds, where `List.set`/`getD` agree with it.) -/
def swapSlots (l : List (Option α)) (i j : Nat) : List (Option α) :=
  (l.set i (l.getD j none)).set j (l.getD i none)

/-- `StackVec::push` (`lib.rs` 385-394): if `len < LEN` write the element into
slot `len` and increment `len`, else panic (flag `false`) leaving the vector
untouched. -/
def push (v : StackVec α) (x : α) : StackVec α × Bool :=
  if v.len < v.cap then
    ({ v with data := v.data.set v.len (some x), len := v.len + 1 }, true)
  else
    (v, false)

/-- The descending swap loop of `StackVec::insert`
(`for i in (idx+1..=self.len).rev() { self.data.swap(i, i-1) }`): `k` is the
number of iterations (`len - idx` in the caller); the first swap touches the
highest pair, as in the source. -/
def shiftUpLoop : Nat → Nat → List (Option α) → List (Option α)
  | _,   0,     l => l
  | idx, k + 1, l => shiftUpLoop idx k (swapSlots l (idx + k + 1) (idx + k))

/-- `StackVec::insert` (`lib.rs` 418-441), faithfully including its bounds
check `idx <= LEN` (the capacity, not the length).  The final guard
`idx < v.cap` models the array indexing `self.data[idx].write(elem)`, which
panics when `idx` equals `LEN`; in that case the preceding loop has performed
no swap, so the vector is returned untouched, as in the source. -/
def insert (v : StackVec α) (idx : Nat) (x : α) : StackVec α × Bool :=
  if v.len < v.cap then
    if idx ≤ v.cap then
      if idx < v.cap then
        ({ v with data := (shiftUpLoop idx (v.len - idx) v.data).set idx (some x),
                  len := v.len + 1 }, true)
      else
        (v, false)
    else
      (v, false)
  else
    (v, false)

/-- The ascending swap loop of `StackVec::remove`
(`for i in idx..self.len - 1 { self.data.swap(i, i + 1) }`): `k` is the number
of iterations (`len - 1 - idx` in the caller), starting at pair
`(idx, idx+1)`. -/
def shiftDownLoop : Nat → Nat → List (Option α) → List (Option α)
  | _, 0,     l => l
  | i, k + 1, l => shiftDownLoop (i + 1) k (swapSlots l i (i + 1))

/-- `StackVec::remove` (`lib.rs` 282-302): when `idx < len`, swap the element
step by step to position `len - 1`, extract it there (leaving the slot
uninitialized) and decrement `len`; otherwise return `None` with the vector
untouched. -/
def remove (v : StackVec α) (idx : Nat) : Option α × StackVec α :=
  if idx < v.len then
    let d := shiftDownLoop idx (v.len - 1 - idx) v.data
    (d.getD (v.len - 1) none,
     { v with data := d.set (v.len - 1) none, len := v.len - 1 })
  else
    (none, v)

/-- `StackVec::swap_remove` (`lib.rs` 314-333): swap slot `idx` with slot
`len - 1`, extract the latter, decrement `len`. -/
def swapRemove (v : StackVec α) (idx : Nat) : Option α × StackVec α :=
  if idx < v.len then
    let d := swapSlots v.data idx (v.len - 1)
    (d.getD (v.len - 1) none,
     { v with data := d.set (v.len - 1) none, len := v.len - 1 })
  else
    (none, v)

/-- `StackVec::pop` (`lib.rs` 340-353): extract slot `len - 1` when
`len > 0`. -/
def pop (v : StackVec α) : Option α × StackVec α :=
  if v.len > 0 then
    (v.data.getD (v.len - 1) none,
     { v with data := v.data.set (v.len - 1) none, len := v.len - 1 })
  else
    (none, v)

/-- The drop loop of `StackVec::clear` (`for i in 0..self.len`, ascending):
`assume_init_drop` leaves slot `i` uninitialized.  `i` is the running index,
`k` the remaining iteration count. -/
def clearLoop : Nat → Nat → List (Option α) → List (Option α)
  | _, 0,     l => l
  | i, k + 1, l => clearLoop (i + 1) k (l.set i none)

/-- `StackVec::clear` (`lib.rs` 357-368): drop the elements `[0, len)` in
ascending order, then reset `len` to `0`. -/
def clear (v : StackVec α) : StackVec α :=
  { v with data := clearLoop 0 v.len v.data, len := 0 }

/-- `StackVec::extend` (`lib.rs` 456-461): push each yielded element in order;
a failing push panics, so iteration stops there and the elements already
pushed stay in place (flag `false`). -/
def extend (v : StackVec α) : List α → StackVec α × Bool
  | []      => (v, true)
  | x :: xs =>
    let r := v.push x
    if r.2 then r.1.extend xs else (r.1, false)

/-- The loop body of `PartialEq::eq` (`lib.rs` 557-573) from index `i` with
`k` iterations left: compare the slots at `i`, return `false` on the first
mismatch, `true` if the loop runs out.  An uninitialized slot would be an
`assume_init_ref` on uninit in the source (UB); it is modelled as `false`
and never reached on `I1`-well-formed inputs. -/
def eqLoop (beq : α → α → Bool) (a b : StackVec α) : Nat → Nat → Bool
  | _, 0     => true
  | i, k + 1 =>
    match a.data.getD i none, b.data.getD i none with
    | some x, some y => if beq x y then eqLoop beq a b (i + 1) k else false
    | _, _ => false

/-- `PartialEq::eq` (`lib.rs` 557-573): `false` if the lengths differ, else
the ascending early-exit comparison loop over `[0, len)`.  `beq` is `T`'s
`==`. -/
def eq (beq : α → α → Bool) (a b : StackVec α) : Bool :=
  if a.len ≠ b.len then false else eqLoop beq a b 0 a.len

/-- The loop body of `PartialEq::ne` (`lib.rs` 576-592) from index `i` with
`k` iterations left: the source returns `false` as soon as one pair of
elements compares EQUAL, and `true` if the loop runs out. -/
def neLoop (beq : α → α → Bool) (a b : StackVec α) : Nat → Nat → Bool
  | _, 0     => true
  | i, k + 1 =>
    match a.data.getD i none, b.data.getD i none with
    | some x, some y => if beq x y then false else neLoop beq a b (i + 1) k
    | _, _ => false

/-- `PartialEq::ne` (`lib.rs` 576-592): `true` if the lengths differ, else the
hand-written loop that returns `false` on the first EQUAL pair. -/
def ne (beq : α → α → Bool) (a b : StackVec α) : Bool :=
  if a.len ≠ b.len then true else neLoop beq a b 0 a.len

/-- The body of `PartialOrd::partial_cmp`'s `for i in 0..` loop
(`lib.rs` 604-639), with explicit fuel for the unbounded range (the source
loop always returns or breaks at `i = 0`, so the fuel is never exhausted;
fuel-exhaustion returns `none` purely to make the recursion total).  The
guards are transcribed exactly as written, including the inverted conditions
`i < self.len => Less` and `i < other.len => Greater`; `cmpT` is `T`'s
`partial_cmp`. -/
def pcmpLoop (cmpT : α → α → Option Ordering) (a b : StackVec α) :
    Nat → Nat → Option Ordering
  | _, 0        => none
  | i, fuel + 1 =>
    if i ≥ a.len ∧ i ≥ b.len then some Ordering.eq
    else if i < a.len then some Ordering.lt
    else if i < b.len then some Ordering.gt
    else
      match a.data.getD i none, b.data.getD i none with
      | some x, some y =>
        match cmpT x y with
        | some Ordering.gt => some Ordering.gt
        | some Ordering.lt => some Ordering.lt
        | none             => none
        | some Ordering.eq => pcmpLoop cmpT a b (i + 1) fuel
      | _, _ => none

/-- `PartialOrd::partial_cmp` (`lib.rs` 602-640): run the loop from `i = 0`.
`a.len + b.len + 1` units of fuel strictly dominate the number of
iterations. -/
def pcmp (cmpT : α → α → Option Ordering) (a b : StackVec α) : Option Ordering :=
  pcmpLoop cmpT a b 0 (a.len + b.len + 1)

/-- `&self.data[s..e]` inside the `index_range_impl!` macro (`lib.rs` 30):
core slice indexing panics unless `s ≤ e ≤ data.length`; on success the view
is the sub-list of slots `[s, e)` (transmuted to `&[T]` in the source). -/
def sliceData (v : StackVec α) (s e : Nat) : Option (List (Option α)) :=
  if s ≤ e ∧ e ≤ v.data.length then some ((v.data.drop s).take (e - s)) else none

/-- `Index<Range<usize>>` (`lib.rs` 669-677): panic if `start >= len` or
`end > len`, then slice `data[start..end]`. -/
def indexRange (v : StackVec α) (s e : Nat) : Option (List (Option α)) :=
  if s ≥ v.len then none
  else if e > v.len then none
  else sliceData v s e

/-- `Index<RangeInclusive<usize>>` (`lib.rs` 678-687): panic if `start >= len`
or `end >= len`, then slice `data[start..end+1]`. -/
def indexRangeInclusive (v : StackVec α) (s e : Nat) : Option (List (Option α)) :=
  if s ≥ v.len then none
  else if e ≥ v.len then none
  else sliceData v s (e + 1)

/-- `Index<RangeFrom<usize>>` (`lib.rs` 688-693): panic if `start >= len`,
then slice `data[start..len]`. -/
def indexRangeFrom (v : StackVec α) (s : Nat) : Option (List (Option α)) :=
  if s ≥ v.len then none else sliceData v s v.len

/-- `Index<RangeTo<usize>>` (`lib.rs` 694-699): panic if `end > len`, then
slice `data[0..end]`. -/
def indexRangeTo (v : StackVec α) (e : Nat) : Option (List (Option α)) :=
  if e > v.len then none else sliceData v 0 e

/-- `Index<RangeToInclusive<usize>>` (`lib.rs` 700-705): panic if
`end >= len`, then slice `data[0..end+1]`. -/
def indexRangeToInclusive (v : StackVec α) (e : Nat) : Option (List (Option α)) :=
  if e ≥ v.len then none else sliceData v 0 (e + 1)

/-- `Index<RangeFull>` (`lib.rs` 706): no check, slice `data[0..len]`
(this is also `as_slice`). -/
def indexRangeFull (v : StackVec α) : Option (List (Option α)) :=
  sliceData v 0 v.len

end StackVec

/-- Embedding of `IntoIter<LEN, T>` (`lib.rs` 57-64): the moved-in vector and
the two cursors.  `iEnd` models the source field `end` (a Lean keyword),
documented as "the current end of the iteration. Exclusive". -/
structure IntoIter (α : Type) where
  vec  : StackVec α
  i    : Nat
  iEnd : Nat
  deriving DecidableEq

namespace IntoIter

/-- `Iterator::next` for `IntoIter` (`lib.rs` 87-99): if `i < end`, swap slot
`i` out (leaving it uninitialized), increment `i` and return the extracted
value; else `None`.  The extracted `Option α` is returned as-is: `none` there
models `assume_init` on an uninitialized slot (UB in the source). -/
def next (it : IntoIter α) : Option α × IntoIter α :=
  if it.i < it.iEnd then
    (it.vec.data.getD it.i none,
     { it with vec := { it.vec with data := it.vec.data.set it.i none },
               i := it.i + 1 })
  else
    (none, it)

/-- `DoubleEndedIterator::next_back` for `IntoIter` (`lib.rs` 114-126),
transcribed exactly: the guard is `end > 0` (not `end > i`), and the slot
swapped out is `data[end]` BEFORE the decrement of `end`. -/
def nextBack (it : IntoIter α) : Option α × IntoIter α :=
  if it.iEnd > 0 then
    (it.vec.data.getD it.iEnd none,
     { it with vec := { it.vec with data := it.vec.data.set it.iEnd none },
               iEnd := it.iEnd - 1 })
  else
    (none, it)

end IntoIter

/-- `StackVec::into_iter` (`lib.rs` 492-495): `front = 0`,
`back_exclusive = len`. -/
def StackVec.intoIter (v : StackVec α) : IntoIter α :=
  { vec := v, i := 0, iEnd := v.len }

/-! ## Helper lemmas about slots -/

namespace StackVec

theorem getD_set_self (l : List (Option α)) (i : Nat) (a : Option α)
    (h : i < l.length) : (l.set i a).getD i none = a := by
  rw [List.getD_eq_getElem?_getD, List.getElem?_set_eq_of_lt a h]
  rfl

theorem getD_set_ne (l : List (Option α)) (i j : Nat) (a : Option α)
    (h : i ≠ j) : (l.set i a).getD j none = l.getD j none := by
  rw [List.getD_eq_getElem?_getD, List.getElem?_set_ne h,
    ← List.getD_eq_getElem?_getD]

theorem swapSlots_length (l : List (Option α)) (i j : Nat) :
    (swapSlots l i j).length = l.length := by
  simp [swapSlots]

theorem getD_swapSlots (l : List (Option α)) (i j n : Nat)
    (hi : i < l.length) (hj : j < l.length) :
    (swapSlots l i j).getD n none =
      if n = j then l.getD i none
      else if n = i then l.getD j none
      else l.getD n none := by
  unfold swapSlots
  by_cases hnj : n = j
  · subst hnj
    rw [getD_set_self _ _ _ (by simpa using hj)]
    simp
  · rw [getD_set_ne _ _ _ _ (fun h => hnj h.symm)]
    by_cases hni : n = i
    · subst hni
      rw [getD_set_self _ _ _ hi]
      simp [hnj]
    · rw [getD_set_ne _ _ _ _ (fun h => hni h.symm)]
      simp [hnj, hni]

theorem shiftDownLoop_length (k : Nat) :
    ∀ (i : Nat) (l : List (Option α)), (shiftDownLoop i k l).length = l.length := by
  induction k with
  | zero => intro i l; rfl
  | succ k ih => intro i l; rw [shiftDownLoop, ih, swapSlots_length]

/-- Net effect of `remove`'s ascending swap loop: a left rotation of the slot
segment `[i, i + k]`. -/
theorem shiftDownLoop_getD (k : Nat) :
    ∀ (i : Nat) (l : List (Option α)), i + k < l.length → ∀ n,
      (shiftDownLoop i k l).getD n none =
        if n < i then l.getD n none
        else if n < i + k then l.getD (n + 1) none
        else if n = i + k then l.getD i none
        else l.getD n none := by
  induction k with
  | zero =>
    intro i l _ n
    rcases Nat.lt_trichotomy n i with h | h | h
    · simp [shiftDownLoop, h]
    · subst h; simp [shiftDownLoop]
    · have h1 : ¬ n < i := by omega
      have h2 : ¬ n = i := by omega
      simp [shiftDownLoop, h1, h2]
  | succ k ih =>
    intro i l hlen n
    have hswap : ∀ m, (swapSlots l i (i + 1)).getD m none =
        if m = i + 1 then l.getD i none
        else if m = i then l.getD (i + 1) none
        else l.getD m none :=
      fun m => getD_swapSlots l i (i + 1) m (by omega) (by omega)
    rw [shiftDownLoop, ih (i + 1) _ (by rw [swapSlots_length]; omega) n]
    rcases Nat.lt_trichotomy n i with h | h | h
    · have h1 : n < i + 1 := by omega
      simp only [if_pos h1, if_pos h, hswap]
      have : ¬ n = i + 1 := by omega
      have : ¬ n = i := by omega
      simp [*]
    · subst h
      have h1 : n < n + 1 := by omega
      have h2 : ¬ n < n := by omega
      have h3 : n < n + (k + 1) := by omega
      simp only [if_pos h1, if_neg h2, if_pos h3, hswap]
      simp
    · have h1 : ¬ n < i + 1 := by omega
      have h2 : ¬ n < i := by omega
      simp only [if_neg h1, if_neg h2]
      rcases Nat.lt_trichotomy n (i + (k + 1)) with h3 | h3 | h3
      · have h4 : n < i + 1 + k := by omega
        have h5 : n < i + (k + 1) := by omega
        simp only [if_pos h4, if_pos h5, hswap]
        have : ¬ n + 1 = i + 1 := by omega
        have : ¬ n + 1 = i := by omega
        simp [*]
      · have h4 : ¬ n < i + 1 + k := by omega
        have h5 : n = i + 1 + k := by omega
        have h6 : ¬ n < i + (k + 1) := by omega
        have h7 : n = i + (k + 1) := by omega
        simp only [if_neg h4, if_pos h5, if_neg h6, if_pos h7, hswap]
        simp
      · have h4 : ¬ n < i + 1 + k := by omega
        have h5 : ¬ n = i + 1 + k := by omega
        have h6 : ¬ n < i + (k + 1) := by omega
        have h7 : ¬ n = i + (k + 1) := by omega
        simp only [if_neg h4, if_neg h5, if_neg h6, if_neg h7, hswap]
        have : ¬ n = i + 1 := by omega
        have : ¬ n = i := by omega
        simp [*]

/-- The equality loop succeeds from index `i` with `k` iterations left exactly
when each of the next `k` slot pairs holds initialized elements that compare
equal. -/
theorem eqLoop_eq_true_iff (beq : α → α → Bool) (a b : StackVec α) (k : Nat) :
    ∀ i, eqLoop beq a b i k = true ↔
      ∀ m, m < k → ∃ x y, a.data.getD (i + m) none = some x ∧
        b.data.getD (i + m) none = some y ∧ beq x y = true := by
  induction k with
  | zero => intro i; simp [eqLoop]
  | succ k ih =>
    intro i
    rcases ha : a.data.getD i none with _ | x
    · simp only [eqLoop, ha]
      constructor
      · intro h; cases h
      · intro h
        rcases h 0 (by omega) with ⟨x, y, hx, _, _⟩
        rw [Nat.add_zero] at hx
        rw [ha] at hx
        cases hx
    · rcases hb : b.data.getD i none with _ | y
      · simp only [eqLoop, ha, hb]
        constructor
        · intro h; cases h
        · intro h
          rcases h 0 (by omega) with ⟨x', y', _, hy, _⟩
          rw [Nat.add_zero] at hy
          rw [hb] at hy
          cases hy
      · simp only [eqLoop, ha, hb]
        by_cases hxy : beq x y = true
        · rw [if_pos hxy, ih (i + 1)]
          constructor
          · intro h m hm
            match m, hm with
            | 0, _ => exact ⟨x, y, by simpa using ha, by simpa using hb, hxy⟩
            | m' + 1, hm =>
              rcases h m' (by omega) with ⟨x', y', hx', hy', hxy'⟩
              exact ⟨x', y', by rw [show i + (m' + 1) = i + 1 + m' by omega]; exact hx',
                by rw [show i + (m' + 1) = i + 1 + m' by omega]; exact hy', hxy'⟩
          · intro h m hm
            rcases h (m + 1) (by omega) with ⟨x', y', hx', hy', hxy'⟩
            exact ⟨x', y', by rw [show i + 1 + m = i + (m + 1) by omega]; exact hx',
              by rw [show i + 1 + m = i + (m + 1) by omega]; exact hy', hxy'⟩
        · rw [if_neg hxy]
          constructor
          · intro h; cases h
          · intro h
            rcases h 0 (by omega) with ⟨x', y', hx', hy', hxy'⟩
            rw [Nat.add_zero, ha] at hx'
            rw [Nat.add_zero, hb] at hy'
            cases hx'; cases hy'
            exact absurd hxy' hxy

/-- General behaviour of `extend`, by induction over the pushed list: the
flag records whether everything fit, the length grows by exactly the number
of elements that fit, the old prefix is untouched, the fitting elements land
in order right after it, and the slots past the appended region are
untouched. -/
theorem extend_go (xs : List α) :
    ∀ v : StackVec α, v.data.length = v.cap → v.len ≤ v.cap →
      (v.extend xs).1.cap = v.cap ∧
      (v.extend xs).1.data.length = v.cap ∧
      (v.extend xs).1.len = v.len + min xs.length (v.cap - v.len) ∧
      ((v.extend xs).2 = true ↔ v.len + xs.length ≤ v.cap) ∧
      (∀ j, j < v.len → (v.extend xs).1.data.getD j none = v.data.getD j none) ∧
      (∀ m, m < min xs.length (v.cap - v.len) →
        (v.extend xs).1.data.getD (v.len + m) none = xs[m]?) ∧
      (∀ j, v.len + min xs.length (v.cap - v.len) ≤ j →
        (v.extend xs).1.data.getD j none = v.data.getD j none) := by
  induction xs with
  | nil =>
    intro v hlen hle
    refine ⟨rfl, hlen, by simp [extend], ?_, fun j _ => rfl, by simp, fun j _ => rfl⟩
    simp [extend]
    omega
  | cons x xs ih =>
    intro v hlen hle
    by_cases hcap : v.len < v.cap
    · have hstep : v.extend (x :: xs) =
          ({ v with data := v.data.set v.len (some x), len := v.len + 1 } :
            StackVec α).extend xs := by
        simp [extend, push, hcap]
      set v' : StackVec α :=
        { v with data := v.data.set v.len (some x), len := v.len + 1 } with hv'
      have hlen' : v'.data.length = v'.cap := by simp [hv', hlen]
      have hle' : v'.len ≤ v'.cap := by simp [hv']; omega
      rcases ih v' hlen' hle' with ⟨hc, hdl, hl, hf, hpre, hmid, hsuf⟩
      have hmin : min (x :: xs).length (v.cap - v.len) =
          1 + min xs.length (v'.cap - v'.len) := by
        simp only [List.length_cons, hv']
        omega
      refine ⟨by rw [hstep]; exact hc, by rw [hstep]; exact hdl, ?_, ?_, ?_, ?_, ?_⟩
      · rw [hstep, hl, hmin]; simp [hv']; omega
      · rw [hstep, hf]; simp only [hv', List.length_cons]; constructor <;> intro <;> omega
      · intro j hj
        rw [hstep, hpre j (by simp [hv']; omega)]
        exact getD_set_ne _ _ _ _ (by omega)
      · intro m hm
        match m with
        | 0 =>
          rw [hstep, Nat.add_zero, hpre v.len (by simp [hv'])]
          simp only [hv']
          rw [getD_set_self _ _ _ (by omega)]
          simp
        | m' + 1 =>
          rw [hstep, show v.len + (m' + 1) = v'.len + m' by simp [hv']; omega,
            hmid m' (by rw [hmin] at hm; simp [hv'] at hm ⊢; omega)]
          simp
      · intro j hj
        rw [hmin] at hj
        rw [hstep, hsuf j (by simp [hv'] at hj ⊢; omega)]
        exact getD_set_ne _ _ _ _ (by omega)
    · have hfull : v.len = v.cap := by omega
      have hstep : v.extend (x :: xs) = (v, false) := by
        simp [extend, push, hcap]
      rw [hstep]
      refine ⟨rfl, hlen, by simp; omega, by simp [List.length_cons]; omega,
        fun j _ => rfl, ?_, fun j _ => rfl⟩
      intro m hm
      simp at hm
      omega

end StackVec

/-! ## Claim theorems -/

/-- Claim C1: the spec says no mutating operation ever leaves invariant I1
violated after it returns.  The code violates this: on an empty capacity-3
vector, `insert(2, 42)` returns normally (its bounds check compares the index
against the capacity `LEN` instead of the length) and leaves a vector with
`len = 1` whose slot 0 is uninitialized while slot 2 is initialized — I1 is
broken. -/
theorem C1_insert_breaks_invariant :
    ((StackVec.new 3 : StackVec ℕ).insert 2 42).2 = true ∧
    ((StackVec.new 3 : StackVec ℕ).insert 2 42).1.len = 1 ∧
    ((StackVec.new 3 : StackVec ℕ).insert 2 42).1.data = [none, none, some 42] ∧
    ¬ StackVec.I1 ((StackVec.new 3 : StackVec ℕ).insert 2 42).1 := by
  decide

/-- Claim C2: the spec (and `insert`'s own doc comment) says `insert` panics
whenever `idx > length`.  The code checks `idx <= LEN` (the capacity) instead
of `idx <= self.len`: on an empty capacity-3 vector, `insert(2, 7)` has
`idx = 2 > length = 0`, yet the call returns normally with the success path
taken. -/
theorem C2_insert_accepts_oob_index :
    (StackVec.new 3 : StackVec ℕ).len < (StackVec.new 3 : StackVec ℕ).cap ∧
    2 > (StackVec.new 3 : StackVec ℕ).len ∧
    ((StackVec.new 3 : StackVec ℕ).insert 2 7).2 = true ∧
    ((StackVec.new 3 : StackVec ℕ).insert 2 7).1.len = 1 := by
  decide

/-- Claim C3: the spec says ordering is lexicographic over the initialized
prefixes, with "equal" when lengths and all elements agree.  The code's
`partial_cmp` has its guards inverted (`i < self.len` returns `Less`, the
comments beside them describe the opposite conditions), so comparing the
one-element vector `[1]` with itself yields `Less` instead of `Equal`, and an
empty vector compares `Greater` than a longer one instead of `Less`; the
element-comparison arm is unreachable. -/
theorem C3_pcmp_inverted_guards :
    StackVec.pcmp (fun x y : ℕ => some (compare x y))
      ⟨1, [some 1], 1⟩ ⟨1, [some 1], 1⟩ = some Ordering.lt ∧
    StackVec.pcmp (fun x y : ℕ => some (compare x y))
      ⟨1, [none], 0⟩ ⟨1, [some 1], 1⟩ = some Ordering.gt := by
  decide

/-- Claim C4: the spec says producing from the back decrements
`back_exclusive` first and then extracts, so on `[10, 20, 30]` the first
backward element is `30`.  The code's `next_back` reads `data[end]` BEFORE
decrementing: on a length-3 vector it extracts the uninitialized slot 3
(undefined behaviour in the source; the uninit marker here), and only the
second backward call yields `30`.  Moreover its guard is `end > 0` rather
than `end > i`, so after a full forward pass (`i = end = 3`) a backward call
still proceeds and moves the cursor instead of reporting exhaustion. -/
theorem C4_next_back_wrong_slot :
    (((⟨4, [some 10, some 20, some 30, none], 3⟩ :
        StackVec ℕ).intoIter.nextBack).1 = none ∧
     ((⟨4, [some 10, some 20, some 30, none], 3⟩ :
        StackVec ℕ).intoIter.nextBack).2.iEnd = 2 ∧
     (((⟨4, [some 10, some 20, some 30, none], 3⟩ :
        StackVec ℕ).intoIter.nextBack).2.nextBack).1 = some 30) ∧
    (((((⟨4, [some 10, some 20, some 30, none], 3⟩ :
        StackVec ℕ).intoIter.next).2.next).2.next).2.i = 3 ∧
     ((((⟨4, [some 10, some 20, some 30, none], 3⟩ :
        StackVec ℕ).intoIter.next).2.next).2.next).2.iEnd = 3 ∧
     (((((⟨4, [some 10, some 20, some 30, none], 3⟩ :
        StackVec ℕ).intoIter.next).2.next).2.next).2.nextBack).2.iEnd = 2) := by
  decide

/-- Claim C5 counterexample: the claim says every slice access whose bounds
fall within `[0, L]` succeeds, in particular every empty range with
`start = end ≤ L`.  On an empty vector (`L = 0`) the code's
`Index<Range<usize>>` check `start >= len` fires for the range `0..0`, a
panic — the claim as stated is false. -/
theorem C5_empty_range_at_len_panics :
    StackVec.indexRange (⟨1, [none], 0⟩ : StackVec ℕ) 0 0 = none ∧
    StackVec.indexRange (⟨3, [some 1, some 2, some 3], 3⟩ : StackVec ℕ) 3 3 = none ∧
    StackVec.indexRangeFrom (⟨3, [some 1, some 2, some 3], 3⟩ : StackVec ℕ) 3 = none := by
  decide

/-- Claim C10: the spec of `PartialEq` requires `ne` to be the strict inverse
of `eq`.  The hand-written `ne` returns `false` as soon as ONE pair of
elements compares equal, so on `[1, 2]` vs `[1, 3]` both `eq` and `ne` return
`false`. -/
theorem C10_ne_not_inverse_of_eq :
    StackVec.eq (fun x y : ℕ => x == y)
      ⟨2, [some 1, some 2], 2⟩ ⟨2, [some 1, some 3], 2⟩ = false ∧
    StackVec.ne (fun x y : ℕ => x == y)
      ⟨2, [some 1, some 2], 2⟩ ⟨2, [some 1, some 3], 2⟩ = false := by
  decide

/-- Claim C5 (amended): a slice access succeeds, returning the view over the
requested sub-range, exactly when the start bound is STRICTLY below the
length, the end bound is within range (exclusive end ≤ L, inclusive end < L)
and the range is not reversed (`start ≤ end`, resp. `start ≤ end + 1` for an
inclusive end); to-end and full forms carry no start check.  In particular an
empty range `s..s` is valid only for `s < L`: `start = L` is a fatal failure
even for empty ranges. -/
theorem C5_slice_access_conditions (v : StackVec α) (s e : Nat) (hWF : v.WF) :
    ((v.indexRange s e).isSome ↔ s < v.len ∧ e ≤ v.len ∧ s ≤ e) ∧
    (s < v.len → e ≤ v.len → s ≤ e →
      v.indexRange s e = some ((v.data.drop s).take (e - s))) ∧
    ((v.indexRangeInclusive s e).isSome ↔ s < v.len ∧ e < v.len ∧ s ≤ e + 1) ∧
    ((v.indexRangeFrom s).isSome ↔ s < v.len) ∧
    ((v.indexRangeTo e).isSome ↔ e ≤ v.len) ∧
    ((v.indexRangeToInclusive e).isSome ↔ e < v.len) ∧
    (v.indexRangeFull).isSome = true := by
  obtain ⟨hdl, hlc⟩ := hWF
  refine ⟨?_, ?_, ?_, ?_, ?_, ?_, ?_⟩
  · simp only [StackVec.indexRange, StackVec.sliceData, hdl]
    split_ifs with h1 h2 h3 <;> simp <;> omega
  · intro h1 h2 h3
    simp only [StackVec.indexRange, StackVec.sliceData, hdl]
    rw [if_neg (by omega), if_neg (by omega), if_pos (by omega)]
  · simp only [StackVec.indexRangeInclusive, StackVec.sliceData, hdl]
    split_ifs with h1 h2 h3 <;> simp <;> omega
  · simp only [StackVec.indexRangeFrom, StackVec.sliceData, hdl]
    split_ifs with h1 h2 <;> simp <;> omega
  · simp only [StackVec.indexRangeTo, StackVec.sliceData, hdl]
    split_ifs with h1 h2 <;> simp <;> omega
  · simp only [StackVec.indexRangeToInclusive, StackVec.sliceData, hdl]
    split_ifs with h1 h2 <;> simp <;> omega
  · simp only [StackVec.indexRangeFull, StackVec.sliceData, hdl]
    rw [if_pos (by omega)]
    rfl

/-- Witness for C5: on `[1, 2, 3]` the range `1..2` is accepted and returns
the one-element view `[2]`. -/
theorem C5_slice_witness :
    StackVec.indexRange (⟨3, [some 1, some 2, some 3], 3⟩ : StackVec ℕ) 1 2
      = some [some 2] := by
  have h := C5_slice_access_conditions
    (⟨3, [some 1, some 2, some 3], 3⟩ : StackVec ℕ) 1 2 (by decide)
  have h2 := h.2.1 (by decide) (by decide) (by decide)
  rw [h2]
  decide

/-- Claim C6: pushing `N + 1` elements into an empty container of capacity
`N` (here: `extend`, which pushes each element in turn) succeeds for the
first `N` — writing each element into the slot at the current length — and
fails on the `(N+1)`-th; after the failure the length is exactly `N` and the
first `N` slots coincide with the state before the failing push. -/
theorem C6_capacity_ceiling (N : Nat) (xs : List α) (h : xs.length = N + 1) :
    ((StackVec.new N : StackVec α).extend (xs.take N)).2 = true ∧
    ((StackVec.new N : StackVec α).extend (xs.take N)).1.len = N ∧
    ((StackVec.new N : StackVec α).extend xs).2 = false ∧
    ((StackVec.new N : StackVec α).extend xs).1.len = N ∧
    ∀ i, i < N →
      ((StackVec.new N : StackVec α).extend xs).1.data.getD i none = xs[i]? ∧
      ((StackVec.new N : StackVec α).extend xs).1.data.getD i none =
        ((StackVec.new N : StackVec α).extend (xs.take N)).1.data.getD i none := by
  have hnew1 : (StackVec.new N : StackVec α).data.length = (StackVec.new N : StackVec α).cap := by
    simp [StackVec.new]
  have hnew2 : (StackVec.new N : StackVec α).len ≤ (StackVec.new N : StackVec α).cap := by
    simp [StackVec.new]
  have htk : (xs.take N).length = N := by simp [h]
  rcases StackVec.extend_go (xs.take N) (StackVec.new N) hnew1 hnew2 with
    ⟨_, _, hl1, hf1, _, hmid1, _⟩
  rcases StackVec.extend_go xs (StackVec.new N) hnew1 hnew2 with
    ⟨_, _, hl2, hf2, _, hmid2, _⟩
  have hcap : (StackVec.new N : StackVec α).cap = N := rfl
  have hlen : (StackVec.new N : StackVec α).len = 0 := rfl
  refine ⟨?_, ?_, ?_, ?_, ?_⟩
  · rw [hf1, htk, hlen, hcap]; omega
  · rw [hl1, htk, hlen, hcap]; omega
  · rw [Bool.eq_false_iff]
    intro hc
    rw [hf2, h, hlen, hcap] at hc
    omega
  · rw [hl2, h, hlen, hcap]; omega
  · intro i hi
    have e2 := hmid2 i (by rw [h, hlen, hcap]; omega)
    rw [hlen, Nat.zero_add] at e2
    have e1 := hmid1 i (by rw [htk, hlen, hcap]; omega)
    rw [hlen, Nat.zero_add] at e1
    refine ⟨e2, ?_⟩
    rw [e1, e2, List.getElem?_take, if_pos hi]

/-- Witness for C6: capacity 2 and the three-element list `[5, 6, 7]`. -/
theorem C6_capacity_ceiling_witness :
    ((StackVec.new 2 : StackVec ℕ).extend ([5, 6, 7].take 2)).2 = true ∧
    ((StackVec.new 2 : StackVec ℕ).extend ([5, 6, 7].take 2)).1.len = 2 ∧
    ((StackVec.new 2 : StackVec ℕ).extend [5, 6, 7]).2 = false ∧
    ((StackVec.new 2 : StackVec ℕ).extend [5, 6, 7]).1.len = 2 ∧
    ∀ i, i < 2 →
      ((StackVec.new 2 : StackVec ℕ).extend [5, 6, 7]).1.data.getD i none = [5, 6, 7][i]? ∧
      ((StackVec.new 2 : StackVec ℕ).extend [5, 6, 7]).1.data.getD i none =
        ((StackVec.new 2 : StackVec ℕ).extend ([5, 6, 7].take 2)).1.data.getD i none :=
  C6_capacity_ceiling 2 [5, 6, 7] (by decide)

/-- Claim C7: `remove(idx)` with `idx < length` returns the element stored at
`idx`, shifts the elements of `[idx+1, length)` one slot toward the start in
order, leaves slot `length - 1` uninitialized, and decrements the length;
with `idx ≥ length` it returns `None` and the vector is completely
unchanged. -/
theorem C7_remove_shifts_and_returns (v : StackVec α) (idx : Nat)
    (hI : StackVec.I1 v) :
    (idx < v.len →
      (v.remove idx).1 = v.data.getD idx none ∧
      ((v.remove idx).1).isSome = true ∧
      (v.remove idx).2.cap = v.cap ∧
      (v.remove idx).2.len = v.len - 1 ∧
      ∀ j, (v.remove idx).2.data.getD j none =
        if j < idx then v.data.getD j none
        else if j < v.len - 1 then v.data.getD (j + 1) none
        else if j = v.len - 1 then none
        else v.data.getD j none) ∧
    (v.len ≤ idx → v.remove idx = (none, v)) := by
  obtain ⟨hdl, hlc, hinit⟩ := hI
  constructor
  · intro h
    have hrange : idx + (v.len - (1 + idx)) < v.data.length := by omega
    have hik : idx + (v.len - (1 + idx)) = v.len - 1 := by omega
    have hd := StackVec.shiftDownLoop_getD (v.len - (1 + idx)) idx v.data hrange
    rw [hik] at hd
    have hdlength : (StackVec.shiftDownLoop idx (v.len - (1 + idx)) v.data).length
        = v.data.length := StackVec.shiftDownLoop_length _ _ _
    have hlast : (StackVec.shiftDownLoop idx (v.len - (1 + idx)) v.data).getD
        (v.len - 1) none = v.data.getD idx none := by
      rw [hd (v.len - 1), if_neg (by omega), if_neg (by omega), if_pos rfl]
    simp only [StackVec.remove, if_pos h, Nat.sub_sub]
    refine ⟨hlast, ?_, ?_, ?_, ?_⟩
    · rw [hlast]
      exact (hinit idx (by omega)).mpr h
    · trivial
    · trivial
    · intro j
      by_cases hj : j = v.len - 1
      · subst hj
        rw [StackVec.getD_set_self _ _ _ (by rw [hdlength]; omega),
          if_neg (by omega), if_neg (by omega), if_pos rfl]
      · rw [StackVec.getD_set_ne _ _ _ _ (fun hx => hj hx.symm), hd j]
        split_ifs <;> rfl
  · intro h
    rw [StackVec.remove, if_neg (by omega)]

/-- Witness for C7: removing index 1 from `[1, 2, 3]` returns `2`, leaves
`[1, 3]` in the first two slots with slot 2 uninitialized, and removing at
index 3 is a no-op returning `None`. -/
theorem C7_remove_witness :
    ((⟨3, [some 1, some 2, some 3], 3⟩ : StackVec ℕ).remove 1).1 = some 2 ∧
    ((⟨3, [some 1, some 2, some 3], 3⟩ : StackVec ℕ).remove 1).2.len = 2 ∧
    ((⟨3, [some 1, some 2, some 3], 3⟩ : StackVec ℕ).remove 1).2.data.getD 1 none
      = some 3 ∧
    (⟨3, [some 1, some 2, some 3], 3⟩ : StackVec ℕ).remove 3
      = (none, ⟨3, [some 1, some 2, some 3], 3⟩) := by
  have h := C7_remove_shifts_and_returns
    (⟨3, [some 1, some 2, some 3], 3⟩ : StackVec ℕ) 1 (by decide)
  rcases h.1 (by decide) with ⟨h1, _, _, h4, h5⟩
  refine ⟨h1.trans (by decide), h4.trans (by decide), (h5 1).trans (by decide), ?_⟩
  exact (C7_remove_shifts_and_returns
    (⟨3, [some 1, some 2, some 3], 3⟩ : StackVec ℕ) 3 (by decide)).2 (by decide)

/-- Claim C8: `extend` appends the input's elements via `push` in yield
order; the call succeeds exactly when everything fits, otherwise it fails at
the first element that does not fit, every element appended before it remains
(in order, right after the untouched old prefix), and the final length is the
prior length plus the number of elements that fit. -/
theorem C8_extend_partial_append (v : StackVec α) (xs : List α)
    (hWF : v.WF) :
    ((v.extend xs).2 = true ↔ v.len + xs.length ≤ v.cap) ∧
    (v.extend xs).1.cap = v.cap ∧
    (v.extend xs).1.len = v.len + min xs.length (v.cap - v.len) ∧
    (∀ j, j < v.len → (v.extend xs).1.data.getD j none = v.data.getD j none) ∧
    (∀ m, m < min xs.length (v.cap - v.len) →
      (v.extend xs).1.data.getD (v.len + m) none = xs[m]?) := by
  rcases StackVec.extend_go xs v hWF.1 hWF.2 with ⟨hc, _, hl, hf, hpre, hmid, _⟩
  exact ⟨hf, hc, hl, hpre, hmid⟩

/-- Witness for C8: extending `[9]` (capacity 3) by `[7, 8, 6]` fails — only
`7` and `8` fit — leaving `[9, 7, 8]` with length 3. -/
theorem C8_extend_witness :
    (((⟨3, [some 9, none, none], 1⟩ : StackVec ℕ).extend [7, 8, 6]).2 = true
      ↔ 1 + 3 ≤ 3) ∧
    ((⟨3, [some 9, none, none], 1⟩ : StackVec ℕ).extend [7, 8, 6]).1.len = 1 + 2 ∧
    ((⟨3, [some 9, none, none], 1⟩ : StackVec ℕ).extend [7, 8, 6]).1.data.getD 0 none
      = some 9 ∧
    ((⟨3, [some 9, none, none], 1⟩ : StackVec ℕ).extend [7, 8, 6]).1.data.getD 1 none
      = some 7 ∧
    ((⟨3, [some 9, none, none], 1⟩ : StackVec ℕ).extend [7, 8, 6]).1.data.getD 2 none
      = some 8 := by
  have h := C8_extend_partial_append
    (⟨3, [some 9, none, none], 1⟩ : StackVec ℕ) [7, 8, 6] (by decide)
  rcases h with ⟨hf, _, hl, hpre, hmid⟩
  exact ⟨by simpa using hf, by simpa using hl, (hpre 0 (by decide)).trans (by decide),
    (hmid 0 (by decide)).trans (by decide), (hmid 1 (by decide)).trans (by decide)⟩

/-- Claim C9: the equality comparison (for any element-level `==`, between
vectors of possibly different declared capacities) returns `true` exactly
when the lengths match and every pair of corresponding slots holds
initialized elements that compare equal. -/
theorem C9_eq_iff_lengths_and_elements (beq : α → α → Bool) (a b : StackVec α) :
    StackVec.eq beq a b = true ↔
      a.len = b.len ∧ ∀ i, i < a.len →
        ∃ x y, a.data.getD i none = some x ∧ b.data.getD i none = some y ∧
          beq x y = true := by
  unfold StackVec.eq
  by_cases h : a.len = b.len
  · rw [if_neg (by simpa using h), StackVec.eqLoop_eq_true_iff]
    constructor
    · intro hx
      exact ⟨h, fun i hi => by simpa using hx i hi⟩
    · intro hx i hi
      simpa using hx.2 i hi
  · rw [if_pos h]
    constructor
    · intro hx
      exact absurd hx (by decide)
    · intro hx
      exact absurd hx.1 h

